import Mathlib

/-!
Verification of the `securitypizza_etl` bulk loader (Go, two pipeline variants).

The repository holds two variants of the same streaming-batch-upsert ETL:

* `securitypizza_etl.go` (identifier-only variant): `hibpEtl` hex-decodes the key
  field, re-encodes it with `encoding/ascii85`, checks `utf8.ValidString`
  (fatal on failure), batches 60 000 identifiers and upserts with
  `ON CONFLICT DO NOTHING`.  Embedded below in namespace `Hibp85`.
* `src/securitypizza_etl.go` (count variant): `hibpEtl` parses `hexdigest:count`
  lines with `strconv.Atoi`, lowercases the digest, batches 10 000 rows and
  upserts with `ON CONFLICT DO UPDATE SET count = EXCLUDED.count`.  Embedded
  below in namespace `CountEtl`.

Shared helpers (`strings.SplitN(s, ":", 2)`, `strings.ToLower`, `strconv.Atoi`,
`unicode/utf8.ValidString`, `encoding/hex.DecodeString`,
`encoding/ascii85.Encode/Decode`) are embedded once at top level / in
namespace `Ascii85`.  Lines and text fields are modelled as `List Char`
(ASCII / UTF-8 text), raw bytes as `Nat` lists whose members are `< 256`,
and the database as an oracle `String → List SqlArg → Bool` giving the
success of each `Exec` call.  Every run additionally records a ghost trace of
the store operations it performs (`Event`), in execution order.
-/

/-- Model of Go `strings.SplitN(s, ":", 2)` restricted to its helper: find the
first occurrence of `':'`; `none` when the separator is absent, otherwise the
parts before and after the first occurrence. -/
def splitOnceAux : List Char → Option (List Char × List Char)
  | [] => none
  | c :: rest =>
    if c = ':' then some ([], rest)
    else
      match splitOnceAux rest with
      | none => none
      | some (a, b) => some (c :: a, b)

/-- Model of Go `strings.SplitN(s, ":", 2)`: one element (the whole line) when
no separator occurs, otherwise exactly the two parts around the first `':'`. -/
def splitN2 (l : List Char) : List (List Char) :=
  match splitOnceAux l with
  | none => [l]
  | some (a, b) => [a, b]

/-- Model of Go `strings.ToLower` on the ASCII text this loader handles (hex
digests): `Char.toLower` maps `A`–`Z` to `a`–`z` and fixes everything else. -/
def goToLower (s : List Char) : List Char :=
  s.map Char.toLower

/-- Decimal-digit accumulation used by Go `strconv.Atoi`: `none` as soon as a
non-digit appears, otherwise the base-10 value of the digit string. -/
def digitsValAux : List Char → Nat → Option Nat
  | [], acc => some acc
  | c :: rest, acc =>
    if 48 ≤ c.toNat ∧ c.toNat ≤ 57 then digitsValAux rest (acc * 10 + (c.toNat - 48))
    else none

/-- Value of a non-empty all-digit string; `none` for the empty string or any
string holding a non-digit (Go `strconv.Atoi` rejects both). -/
def digitsVal : List Char → Option Nat
  | [] => none
  | l => digitsValAux l 0

/-- Model of Go `strconv.Atoi`: optional single leading sign, then a non-empty
run of decimal digits, with the 64-bit signed range check of `ParseInt`
(`-2^63 ≤ v ≤ 2^63 - 1`); anything else is an error (`none`). -/
def goAtoi (s : List Char) : Option Int :=
  match s with
  | '-' :: rest =>
    match digitsVal rest with
    | some n => if n ≤ 9223372036854775808 then some (-(n : Int)) else none
    | none => none
  | '+' :: rest =>
    match digitsVal rest with
    | some n => if n ≤ 9223372036854775807 then some (n : Int) else none
    | none => none
  | _ =>
    match digitsVal s with
    | some n => if n ≤ 9223372036854775807 then some (n : Int) else none
    | none => none

/-- One multi-byte rune step of Go `unicode/utf8`'s validation, from the
`first` / `acceptRanges` tables: for a leading byte `b` (not ASCII),
`0x80`–`0xC1` and `0xF5`–`0xFF` are invalid; `0xC2`–`0xDF` start a 2-byte
rune, `0xE0`–`0xEF` a 3-byte rune, `0xF0`–`0xF4` a 4-byte rune.  The first
continuation byte is range-restricted per leading byte (`E0`: `A0`–`BF`,
`ED`: `80`–`9F`, `F0`: `90`–`BF`, `F4`: `80`–`8F`, otherwise `80`–`BF`),
later continuation bytes are `80`–`BF`.  Returns the remaining bytes after a
valid rune, `none` on an invalid sequence. -/
def utf8MultiByte (b : Nat) (l : List Nat) : Option (List Nat) :=
  if b < 194 then none
  else if b < 224 then
    match l with
    | b1 :: r => if 128 ≤ b1 ∧ b1 ≤ 191 then some r else none
    | [] => none
  else if b < 240 then
    match l with
    | b1 :: b2 :: r =>
      if (if b = 224 then 160 ≤ b1 ∧ b1 ≤ 191
          else if b = 237 then 128 ≤ b1 ∧ b1 ≤ 159
          else 128 ≤ b1 ∧ b1 ≤ 191) ∧ (128 ≤ b2 ∧ b2 ≤ 191)
      then some r else none
    | _ => none
  else if b < 245 then
    match l with
    | b1 :: b2 :: b3 :: r =>
      if (if b = 240 then 144 ≤ b1 ∧ b1 ≤ 191
          else if b = 244 then 128 ≤ b1 ∧ b1 ≤ 143
          else 128 ≤ b1 ∧ b1 ≤ 191) ∧ (128 ≤ b2 ∧ b2 ≤ 191) ∧ (128 ≤ b3 ∧ b3 ≤ 191)
      then some r else none
    | _ => none
  else none

/-- The validation loop of Go `unicode/utf8.Valid`, with an explicit fuel
argument for structural termination (each loop step consumes at least one
byte, so `fuel = length` suffices): ASCII bytes pass directly, any other
byte must start a valid multi-byte rune. -/
def utf8ValidAux : Nat → List Nat → Bool
  | _, [] => true
  | 0, _ :: _ => false
  | fuel + 1, b :: rest =>
    if b < 128 then utf8ValidAux fuel rest
    else
      match utf8MultiByte b rest with
      | none => false
      | some r => utf8ValidAux fuel r

/-- Model of Go `unicode/utf8.ValidString` on a byte sequence. -/
def utf8Valid (l : List Nat) : Bool := utf8ValidAux l.length l

namespace Ascii85

/-- Big-endian packing of (up to) four bytes into the 32-bit group value, as in
`ascii85.Encode`'s `switch len(src)` (missing low bytes are zero). -/
def pack4 : List Nat → Nat
  | [] => 0
  | [b0] => b0 * 16777216
  | [b0, b1] => b0 * 16777216 + b1 * 65536
  | [b0, b1, b2] => b0 * 16777216 + b1 * 65536 + b2 * 256
  | b0 :: b1 :: b2 :: b3 :: _ => b0 * 16777216 + b1 * 65536 + b2 * 256 + b3

/-- Big-endian unpacking of a 32-bit group value into four bytes
(`binary.BigEndian.PutUint32`). -/
def unpack4 (v : Nat) : List Nat :=
  [v / 16777216 % 256, v / 65536 % 256, v / 256 % 256, v % 256]

/-- The five base-85 digit characters of a group value, most significant
first, as produced by `ascii85.Encode`'s inner loop
(`dst[i] = '!' + v%85; v /= 85` for `i = 4` down to `0`). -/
def encGroup (v : Nat) : List Nat :=
  [v / 52200625 % 85 + 33, v / 614125 % 85 + 33, v / 7225 % 85 + 33,
   v / 85 % 85 + 33, v % 85 + 33]

/-- Model of Go `encoding/ascii85.Encode` (output bytes of the printable
encoding): four input bytes per group, `'z'` (122) for an all-zero group when
at least four input bytes remain, and `len(src)+1` digit characters for a
final short group. -/
def Encode : List Nat → List Nat
  | [] => []
  | b0 :: b1 :: b2 :: b3 :: rest =>
    let v := pack4 [b0, b1, b2, b3]
    if v = 0 then 122 :: Encode rest
    else encGroup v ++ Encode rest
  | src => (encGroup (pack4 src)).take (src.length + 1)

/-- One digit step of `ascii85.Decode`'s accumulator `v = v*85 + (b - '!')`,
on Go's `uint32` (wraparound modulo `2^32`). -/
def decodeStep (v b : Nat) : Nat :=
  (v * 85 + (b - 33)) % 4294967296

/-- Ghost assembly of decoded output: Go's `Decode` writes the four bytes of
a completed group into `dst` before continuing; in the embedding the group's
bytes are prepended to the output of the remaining loop (`none` propagates a
`CorruptInputError`). -/
def prependBytes (bs : List Nat) : Option (List Nat × Nat × Nat) → Option (List Nat × Nat × Nat)
  | none => none
  | some (out, vf, nbf) => some (bs ++ out, vf, nbf)

/-- The main loop of Go `encoding/ascii85.Decode`: skips bytes `≤ ' '`,
expands `'z'` (only at a group boundary) to four zero bytes, accumulates
digit bytes `'!'`–`'u'`, flushes four output bytes whenever five digits have
been read, and fails (`none` = `CorruptInputError`) on any other byte.
Returns the decoded output together with the final accumulator and digit
count. -/
def DecodeLoop : List Nat → Nat → Nat → Option (List Nat × Nat × Nat)
  | [], v, nb => some ([], v, nb)
  | b :: rest, v, nb =>
    if b ≤ 32 then DecodeLoop rest v nb
    else if b = 122 ∧ nb = 0 then
      prependBytes [0, 0, 0, 0] (DecodeLoop rest 0 0)
    else if 33 ≤ b ∧ b ≤ 117 then
      if nb = 4 then prependBytes (unpack4 (decodeStep v b)) (DecodeLoop rest 0 0)
      else DecodeLoop rest (decodeStep v b) (nb + 1)
    else none

/-- The flush padding of `ascii85.Decode`: `k` iterations of `v = v*85 + 84`
on `uint32` ("assume the worst case digit 84 so the top bits are correct"). -/
def pad85 : Nat → Nat → Nat
  | v, 0 => v
  | v, k + 1 => pad85 ((v * 85 + 84) % 4294967296) k

/-- Model of Go `encoding/ascii85.Decode` with `flush = true` and a large
enough destination: run the main loop, then handle a leftover short group —
one leftover digit is corrupt, `nb` leftover digits (`2 ≤ nb ≤ 4`) are padded
with digit 84 up to five and yield their top `nb - 1` bytes. -/
def Decode (src : List Nat) : Option (List Nat) :=
  match DecodeLoop src 0 0 with
  | none => none
  | some (out, v, nb) =>
    match nb with
    | 0 => some out
    | 1 => none
    | _ => some (out ++ (unpack4 (pad85 v (5 - nb))).take (nb - 1))

/-- The `z` abbreviation condition: some aligned full 4-byte group of the
input packs to the 32-bit value 0 (such a group is emitted as the single
character `z` instead of five digits). -/
def hasZeroGroup : List Nat → Bool
  | b0 :: b1 :: b2 :: b3 :: rest => (pack4 [b0, b1, b2, b3] == 0) || hasZeroGroup rest
  | _ => false

/-- Output length of `Encode` when no `z` abbreviation fires: five characters
per full group, one more character than bytes for a final short group. -/
def encLen (n : Nat) : Nat :=
  5 * (n / 4) + (if n % 4 = 0 then 0 else n % 4 + 1)

end Ascii85

namespace Hibp85

/-- Model of Go `encoding/hex`'s `fromHexChar`: value of one hex digit
(`0`–`9`, `a`–`f`, `A`–`F`), `none` otherwise. -/
def fromHexChar (c : Char) : Option Nat :=
  if 48 ≤ c.toNat ∧ c.toNat ≤ 57 then some (c.toNat - 48)
  else if 97 ≤ c.toNat ∧ c.toNat ≤ 102 then some (c.toNat - 97 + 10)
  else if 65 ≤ c.toNat ∧ c.toNat ≤ 70 then some (c.toNat - 65 + 10)
  else none

/-- Model of Go `encoding/hex.DecodeString`: pairs of hex digits become bytes;
an odd length (`ErrLength`) or any non-hex character (`InvalidByteError`)
gives an error (`none`) — the caller only distinguishes `err != nil`. -/
def hexDecode : List Char → Option (List Nat)
  | [] => some []
  | [_] => none
  | c1 :: c2 :: rest =>
    match fromHexChar c1, fromHexChar c2, hexDecode rest with
    | some h, some l, some bs => some ((h * 16 + l) :: bs)
    | _, _, _ => none

end Hibp85

/-- A bound parameter of a `pgxpool.Exec` call: the loader binds text
(identifiers, passwords) and Go `int` values. -/
inductive SqlArg where
  | str : List Char → SqlArg
  | int : Int → SqlArg
deriving DecidableEq, Repr

/-- One store operation observed during a run (ghost trace): a batch-upsert
`Exec` carrying the batch it was built from and whether the store accepted
it, or the single ledger insert of `dbLogImportData` carrying source name,
terminal state and whether the store accepted it. -/
inductive Event where
  | exec : List SqlArg → Bool → Event
  | ledger : String → String → Bool → Event
deriving DecidableEq, Repr

/-- Whether an event is a batch-upsert `Exec` (as opposed to the ledger
insert). -/
def Event.isExec : Event → Bool
  | .exec _ _ => true
  | .ledger _ _ _ => false

namespace CountEtl

/-- Batch size constant of `src/securitypizza_etl.go` (count variant). -/
def BATCH_SIZE : Nat := 10000

/-- Go `type hibpData struct { hash string; count int }`. -/
structure hibpData where
  hash : List Char
  count : Int
deriving DecidableEq, Repr

/-- The placeholder groups `($1, $2),($3, $4),...` built by
`hibpProcessRowDataBatch`'s loop: `"($%d, $%d)", i*2+1, i*2+2` for each row
index `i`. -/
def hibpBatchValues (rowData : List hibpData) : List String :=
  (List.range rowData.length).map
    (fun i => "($" ++ toString (i * 2 + 1) ++ ", $" ++ toString (i * 2 + 2) ++ ")")

/-- The bound arguments of the batch statement: `row.hash, row.count` per row,
in row order. -/
def hibpBatchArgs (rowData : List hibpData) : List SqlArg :=
  (rowData.map (fun row => [SqlArg.str row.hash, SqlArg.int row.count])).flatten

/-- The SQL text built by `hibpProcessRowDataBatch`:
`INSERT INTO hibp (hibp_id, count) VALUES %s ON CONFLICT (hibp_id) DO UPDATE
SET count = EXCLUDED.count` with `%s` the comma-join of the placeholder
groups (the empty string for an empty batch). -/
def hibpBatchSql (rowData : List hibpData) : String :=
  "INSERT INTO hibp (hibp_id, count) VALUES " ++
    String.intercalate "," (hibpBatchValues rowData) ++
    " ON CONFLICT (hibp_id) DO UPDATE SET count = EXCLUDED.count"

/-- Go `hibpProcessRowDataBatch(rowData, dbPool)`: build the multi-row upsert,
execute it once, and return 1 on execution failure (logged, batch dropped),
0 on success.  `db` is the store oracle deciding each `Exec`. -/
def hibpProcessRowDataBatch (db : String → List SqlArg → Bool)
    (rowData : List hibpData) : Nat :=
  if db (hibpBatchSql rowData) (hibpBatchArgs rowData) then 0 else 1

/-- The ghost trace entry for one `hibpProcessRowDataBatch` invocation: the
batch it was called with and the outcome of its single `Exec`. -/
def batchEvent (db : String → List SqlArg → Bool) (rowData : List hibpData) : Event :=
  Event.exec (hibpBatchArgs rowData) (db (hibpBatchSql rowData) (hibpBatchArgs rowData))

/-- The run-local mutable state of `hibpEtl`'s scan loop: accepted-row counter
`count`, error counter `errors`, the current batch buffer `rowData`, plus
the ghost trace of store operations performed so far. -/
structure EtlState where
  count : Nat
  errors : Nat
  rowData : List hibpData
  events : List Event
deriving DecidableEq, Repr

/-- `hibpEtl`'s loop state at entry: zero counters, empty buffer. -/
def initState : EtlState := ⟨0, 0, [], []⟩

/-- One iteration of `hibpEtl`'s scan loop (count variant), for one input
line: split on the first `':'` (`len(data) != 2` → error, skip), parse the
value field with `strconv.Atoi` (failure → error, skip), lowercase the key
field, count and buffer the row, and flush the batch through
`hibpProcessRowDataBatch` when `count % BATCH_SIZE == 0`.  `B` is the batch
size constant. -/
def hibpEtlLine (B : Nat) (db : String → List SqlArg → Bool)
    (st : EtlState) (line : List Char) : EtlState :=
  match splitN2 line with
  | [d0, d1] =>
    match goAtoi d1 with
    | none => { st with errors := st.errors + 1 }
    | some numCount =>
      let hash := goToLower d0
      let count := st.count + 1
      let rowData := st.rowData ++ [⟨hash, numCount⟩]
      if count % B = 0 then
        { count := count,
          errors := st.errors + hibpProcessRowDataBatch db rowData,
          rowData := [],
          events := st.events ++ [batchEvent db rowData] }
      else
        { st with count := count, rowData := rowData }
  | _ => { st with errors := st.errors + 1 }

/-- What `hibpEtl` leaves behind for one run: its return value `count`, the
final error counter, the ledger state it recorded, and the ghost trace of
store operations in execution order. -/
structure RunResult where
  count : Nat
  errors : Nat
  state : String
  events : List Event
deriving DecidableEq, Repr

/-- Go `hibpEtl` after a successful scan of `lines` (count variant): fold the
scan loop over the lines, flush the final (possibly partial, possibly empty)
batch unconditionally, derive the ledger state (`"error"` iff the error
counter is positive, else `"done"`), write the ledger entry via
`dbLogImportData` (whose own failure, `ledgerOk = false`, is only logged),
and return the accepted-row count. -/
def hibpEtl (B : Nat) (db : String → List SqlArg → Bool) (ledgerOk : Bool)
    (lines : List (List Char)) : RunResult :=
  let st := lines.foldl (hibpEtlLine B db) initState
  let e := hibpProcessRowDataBatch db st.rowData
  let errors := st.errors + e
  let state := if errors > 0 then "error" else "done"
  { count := st.count,
    errors := errors,
    state := state,
    events := st.events ++ [batchEvent db st.rowData] ++
      [Event.ledger "pwned-passwords-sha1" state ledgerOk] }

/-- The sizes (row counts) of the batch-upsert invocations recorded in a
trace, in order; each `Exec` binds two arguments per row. -/
def execSizes (evs : List Event) : List Nat :=
  evs.foldr (fun e acc => match e with | .exec args _ => args.length / 2 :: acc | _ => acc) []

/-- The arguments of the batch-upsert invocations recorded in a trace, in
order (one entry per `hibpProcessRowDataBatch` call). -/
def execBatches (evs : List Event) : List (List SqlArg) :=
  evs.foldr (fun e acc => match e with | .exec args _ => args :: acc | _ => acc) []

/-- The number of failed batch-upsert invocations recorded in a trace. -/
def failCount (evs : List Event) : Nat :=
  evs.foldr (fun e acc => match e with | .exec _ false => acc + 1 | _ => acc) 0

/-- All rows the run has handed to the Upsert Writer or still buffers, in
input order: the flushed batches followed by the current buffer. -/
def allRows (st : EtlState) : List SqlArg :=
  (execBatches st.events).flatten ++ hibpBatchArgs st.rowData

/-- An input line the count pipeline accepts (produces a row): the split
yields two parts and the value field parses as an integer. -/
def acceptedCountLine (line : List Char) : Bool :=
  match splitN2 line with
  | [_, d1] => (goAtoi d1).isSome
  | _ => false

end CountEtl

namespace Hibp85

/-- Batch size constant of `securitypizza_etl.go` (identifier-only variant). -/
def BATCH_SIZE : Nat := 60000

/-- The placeholder groups `($1),($2),...` built by this variant's
`hibpProcessRowDataBatch` loop: `"($%d)", i+1` for each row index `i`. -/
def hibpBatchValues (rowData : List (List Nat)) : List String :=
  (List.range rowData.length).map (fun i => "($" ++ toString (i + 1) ++ ")")

/-- The SQL text built by this variant's `hibpProcessRowDataBatch`:
`INSERT INTO hibp (hibp_id) VALUES %s ON CONFLICT (hibp_id) DO NOTHING` with
`%s` the comma-join of the placeholder groups. -/
def hibpBatchSql (rowData : List (List Nat)) : String :=
  "INSERT INTO hibp (hibp_id) VALUES " ++
    String.intercalate "," (hibpBatchValues rowData) ++
    " ON CONFLICT (hibp_id) DO NOTHING"

/-- Go `hibpProcessRowDataBatch(dbPool, rowData)` (identifier-only variant):
one `Exec` of the multi-row conflict-do-nothing insert; 1 on execution
failure, 0 on success.  Rows are the re-encoded identifier byte strings. -/
def hibpProcessRowDataBatch (db : String → List (List Nat) → Bool)
    (rowData : List (List Nat)) : Nat :=
  if db (hibpBatchSql rowData) rowData then 0 else 1

/-- The run-local state of this variant's scan loop. -/
structure EtlState where
  count : Nat
  errors : Nat
  rowData : List (List Nat)
deriving DecidableEq, Repr

/-- One iteration of `hibpEtl`'s scan loop (identifier-only variant): split on
the first `':'` (`len(data) != 2` → error, skip), hex-decode the key field
(failure → error, skip), re-encode the raw bytes with `ascii85.Encode`, run
the fatal `utf8.ValidString` check (`log.Fatal`, modelled as `none`, on
failure), then count, buffer and flush on a full batch. -/
def hibpEtlLine (B : Nat) (db : String → List (List Nat) → Bool)
    (st : EtlState) (line : List Char) : Option EtlState :=
  match splitN2 line with
  | [d0, _d1] =>
    match hexDecode d0 with
    | none => some { st with errors := st.errors + 1 }
    | some hash =>
      let hibp := Ascii85.Encode hash
      if utf8Valid hibp then
        let count := st.count + 1
        let rowData := st.rowData ++ [hibp]
        if count % B = 0 then
          some { count := count,
                 errors := st.errors + hibpProcessRowDataBatch db rowData,
                 rowData := [] }
        else
          some { count := count, errors := st.errors, rowData := rowData }
      else
        none
  | _ => some { st with errors := st.errors + 1 }

end Hibp85

/-! ### Helper lemmas about the line splitter and the ghost trace -/

theorem splitOnceAux_eq_none (l : List Char) (h : ':' ∉ l) : splitOnceAux l = none := by
  induction l with
  | nil => rfl
  | cons c rest ih =>
    simp only [List.mem_cons, not_or] at h
    have hc : ¬ c = ':' := fun hcc => h.1 (Eq.symm hcc)
    simp only [splitOnceAux, if_neg hc, ih h.2]

theorem splitOnceAux_of_mem (l : List Char) (h : ':' ∈ l) :
    ∃ a b, l = a ++ ':' :: b ∧ ':' ∉ a ∧ splitOnceAux l = some (a, b) := by
  induction l with
  | nil => cases h
  | cons c rest ih =>
    by_cases hc : c = ':'
    · subst hc
      exact ⟨[], rest, rfl, by simp, by simp [splitOnceAux]⟩
    · have hrest : ':' ∈ rest := by
        rcases List.mem_cons.mp h with h1 | h1
        · exact absurd h1.symm hc
        · exact h1
      obtain ⟨a, b, he, hna, hs⟩ := ih hrest
      refine ⟨c :: a, b, by simp [he], ?_, ?_⟩
      · simp only [List.mem_cons, not_or]
        exact ⟨fun h1 => hc h1.symm, hna⟩
      · simp [splitOnceAux, hc, hs]

theorem splitOnceAux_append (a b : List Char) (h : ':' ∉ a) :
    splitOnceAux (a ++ ':' :: b) = some (a, b) := by
  induction a with
  | nil => simp [splitOnceAux]
  | cons c rest ih =>
    simp only [List.mem_cons, not_or] at h
    have hc : ¬ c = ':' := fun hcc => h.1 (Eq.symm hcc)
    simp [splitOnceAux, hc, ih h.2]

namespace CountEtl

@[simp] theorem execBatches_nil : execBatches [] = [] := rfl

@[simp] theorem execBatches_cons (e : Event) (evs : List Event) :
    execBatches (e :: evs) =
      (match e with | .exec args _ => [args] | _ => []) ++ execBatches evs := by
  cases e <;> rfl

@[simp] theorem execBatches_append (a b : List Event) :
    execBatches (a ++ b) = execBatches a ++ execBatches b := by
  induction a with
  | nil => rfl
  | cons e rest ih => cases e <;> simp [ih]

@[simp] theorem execSizes_nil : execSizes [] = [] := rfl

@[simp] theorem execSizes_cons (e : Event) (evs : List Event) :
    execSizes (e :: evs) =
      (match e with | .exec args _ => [args.length / 2] | _ => []) ++ execSizes evs := by
  cases e <;> rfl

@[simp] theorem execSizes_append (a b : List Event) :
    execSizes (a ++ b) = execSizes a ++ execSizes b := by
  induction a with
  | nil => rfl
  | cons e rest ih => cases e <;> simp [ih]

@[simp] theorem failCount_nil : failCount [] = 0 := rfl

@[simp] theorem failCount_cons (e : Event) (evs : List Event) :
    failCount (e :: evs) =
      (match e with | .exec _ false => 1 | _ => 0) + failCount evs := by
  cases e with
  | exec a ok =>
    cases ok
    · simp [failCount]
      omega
    · simp [failCount]
  | ledger n s ok => simp [failCount]

@[simp] theorem failCount_append (a b : List Event) :
    failCount (a ++ b) = failCount a + failCount b := by
  induction a with
  | nil => simp
  | cons e rest ih =>
    rw [List.cons_append, failCount_cons, failCount_cons, ih]
    omega

@[simp] theorem hibpBatchArgs_nil : hibpBatchArgs [] = [] := rfl

@[simp] theorem hibpBatchArgs_append (a b : List hibpData) :
    hibpBatchArgs (a ++ b) = hibpBatchArgs a ++ hibpBatchArgs b := by
  simp [hibpBatchArgs]

@[simp] theorem hibpBatchArgs_singleton (r : hibpData) :
    hibpBatchArgs [r] = [SqlArg.str r.hash, SqlArg.int r.count] := rfl

@[simp] theorem hibpBatchArgs_length (a : List hibpData) :
    (hibpBatchArgs a).length = 2 * a.length := by
  induction a with
  | nil => rfl
  | cons r rest ih =>
    have : r :: rest = [r] ++ rest := rfl
    rw [this, hibpBatchArgs_append]
    simp [ih]
    omega

end CountEtl

/-! ### Claims C1, C2, C4, C8 -/

/-- Claim C1, code-bug theorem.  On an empty input the run accepts 0 rows, but
the unconditional end-of-input flush is *not* a no-op at the Writer: it still
performs exactly one store `Exec`, whose SQL text has an empty `VALUES` list
(invalid SQL).  When the store rejects that statement (`db ... = false`, as
PostgreSQL does for a syntax error), the run reports 1 error and writes the
ledger entry with state `"error"`, not `"done"`. -/
theorem C1_empty_input_flush_not_noop (db : String → List SqlArg → Bool) (ledgerOk : Bool) :
    (CountEtl.hibpEtl CountEtl.BATCH_SIZE db ledgerOk []).count = 0 ∧
    (CountEtl.hibpEtl CountEtl.BATCH_SIZE db ledgerOk []).events =
      [Event.exec [] (db (CountEtl.hibpBatchSql []) []),
       Event.ledger "pwned-passwords-sha1"
         (if db (CountEtl.hibpBatchSql []) [] then "done" else "error") ledgerOk] ∧
    (CountEtl.hibpEtl CountEtl.BATCH_SIZE db ledgerOk []).errors =
      (if db (CountEtl.hibpBatchSql []) [] then 0 else 1) ∧
    (CountEtl.hibpEtl CountEtl.BATCH_SIZE db ledgerOk []).state =
      (if db (CountEtl.hibpBatchSql []) [] then "done" else "error") ∧
    CountEtl.hibpBatchSql [] =
      "INSERT INTO hibp (hibp_id, count) VALUES  ON CONFLICT (hibp_id) DO UPDATE SET count = EXCLUDED.count" := by
  cases hok : db (CountEtl.hibpBatchSql []) [] <;>
    (simp [CountEtl.hibpEtl, CountEtl.initState, CountEtl.hibpProcessRowDataBatch,
      CountEtl.batchEvent, CountEtl.hibpBatchArgs, hok]; rfl)

/-- Claim C2: in count mode, a line `h:n` (first separator after `h`) with a
parseable integer value appends exactly one row, whose identifier is the
lowercased `h` and whose count is the parsed integer, and bumps the accepted
count; a line whose value field is not a parseable integer only increments
the error counter (no row, nothing else changes). -/
theorem C2_count_row_fields (B : Nat) (db : String → List SqlArg → Bool)
    (st : CountEtl.EtlState) (h v : List Char) (hh : ':' ∉ h) :
    (∀ n, goAtoi v = some n →
      CountEtl.allRows (CountEtl.hibpEtlLine B db st (h ++ ':' :: v)) =
        CountEtl.allRows st ++ [SqlArg.str (goToLower h), SqlArg.int n] ∧
      (CountEtl.hibpEtlLine B db st (h ++ ':' :: v)).count = st.count + 1) ∧
    (goAtoi v = none →
      CountEtl.hibpEtlLine B db st (h ++ ':' :: v) = { st with errors := st.errors + 1 }) := by
  have hsplit : splitN2 (h ++ ':' :: v) = [h, v] := by
    simp [splitN2, splitOnceAux_append h v hh]
  constructor
  · intro n hn
    simp only [CountEtl.hibpEtlLine, hsplit, hn]
    by_cases hflush : st.count + 1 % B = 0
    all_goals
      simp only [CountEtl.allRows]
      split <;>
        simp [CountEtl.batchEvent, CountEtl.hibpBatchArgs_append]
  · intro hn
    simp [CountEtl.hibpEtlLine, hsplit, hn]

/-- Claim C2 witness: on the line `Ab:5` the appended row is
`{hash := "ab", count := 5}`; on `ab:x` only the error counter moves. -/
theorem C2_count_row_fields_witness :
    (CountEtl.allRows (CountEtl.hibpEtlLine 10000 (fun _ _ => true) CountEtl.initState
        (['A', 'b'] ++ ':' :: ['5'])) =
      CountEtl.allRows CountEtl.initState ++
        [SqlArg.str (goToLower ['A', 'b']), SqlArg.int 5]) ∧
    CountEtl.hibpEtlLine 10000 (fun _ _ => true) CountEtl.initState
        (['a', 'b'] ++ ':' :: ['x']) =
      { CountEtl.initState with errors := 1 } :=
  ⟨((C2_count_row_fields 10000 (fun _ _ => true) CountEtl.initState
      ['A', 'b'] ['5'] (by decide)).1 5 (by decide)).1,
   (C2_count_row_fields 10000 (fun _ _ => true) CountEtl.initState
      ['a', 'b'] ['x'] (by decide)).2 (by decide)⟩

/-- Claim C4, counterexample.  The code never checks the two parts for
non-emptiness: on the line `":5"` the split yields two parts with an *empty*
first part, yet no unparseable-line error is counted — the line is accepted
and a row with an empty identifier is buffered.  This refutes the claim that
a split not yielding two non-empty parts is classified as an error. -/
theorem C4_empty_part_accepted_counterexample :
    splitN2 [':', '5'] = [[], ['5']] ∧
    CountEtl.hibpEtlLine CountEtl.BATCH_SIZE (fun _ _ => true) CountEtl.initState [':', '5'] =
      { count := 1, errors := 0, rowData := [⟨[], 5⟩], events := [] } := by
  constructor
  · rfl
  · decide

/-- Claim C4 as amended: the Line Parser splits on the first `':'` into
exactly two — possibly empty — parts, and classifies a line as an
unparseable-line error (error counter incremented, line skipped) exactly
when the separator is absent; emptiness of the parts is not checked. -/
theorem C4_split_error_iff_no_separator (B : Nat) (db : String → List SqlArg → Bool)
    (st : CountEtl.EtlState) (line : List Char) :
    (':' ∈ line → ∃ a b, line = a ++ ':' :: b ∧ ':' ∉ a ∧ splitN2 line = [a, b]) ∧
    (':' ∉ line → splitN2 line = [line] ∧
      CountEtl.hibpEtlLine B db st line = { st with errors := st.errors + 1 }) := by
  constructor
  · intro hmem
    obtain ⟨a, b, he, hna, hs⟩ := splitOnceAux_of_mem line hmem
    exact ⟨a, b, he, hna, by simp [splitN2, hs]⟩
  · intro hmem
    have hs : splitN2 line = [line] := by simp [splitN2, splitOnceAux_eq_none line hmem]
    exact ⟨hs, by simp [CountEtl.hibpEtlLine, hs]⟩

/-- Claim C4 amended-theorem witness at the concrete lines `ab:5` (separator
present: two-part split) and `ab5` (separator absent: error counted). -/
theorem C4_split_error_iff_no_separator_witness :
    (∃ a b, ['a', 'b', ':', '5'] = a ++ ':' :: b ∧ ':' ∉ a ∧
      splitN2 ['a', 'b', ':', '5'] = [a, b]) ∧
    (splitN2 ['a', 'b', '5'] = [['a', 'b', '5']] ∧
      CountEtl.hibpEtlLine 10000 (fun _ _ => true) CountEtl.initState ['a', 'b', '5'] =
        { CountEtl.initState with errors := 1 }) :=
  ⟨(C4_split_error_iff_no_separator 10000 (fun _ _ => true) CountEtl.initState
      ['a', 'b', ':', '5']).1 (by decide),
   (C4_split_error_iff_no_separator 10000 (fun _ _ => true) CountEtl.initState
      ['a', 'b', '5']).2 (by decide)⟩

/-- Claim C8: a failed ledger write is only logged.  The run's return value
(the accepted row count), its error counter, its terminal state and the
sequence of batch upserts it issued are all identical whether the ledger
insert succeeds or fails; the run completes either way. -/
theorem C8_ledger_failure_does_not_propagate (B : Nat) (db : String → List SqlArg → Bool)
    (lines : List (List Char)) (lOk lOk' : Bool) :
    (CountEtl.hibpEtl B db lOk lines).count = (CountEtl.hibpEtl B db lOk' lines).count ∧
    (CountEtl.hibpEtl B db lOk lines).errors = (CountEtl.hibpEtl B db lOk' lines).errors ∧
    (CountEtl.hibpEtl B db lOk lines).state = (CountEtl.hibpEtl B db lOk' lines).state ∧
    CountEtl.execBatches (CountEtl.hibpEtl B db lOk lines).events =
      CountEtl.execBatches (CountEtl.hibpEtl B db lOk' lines).events := by
  refine ⟨rfl, rfl, rfl, ?_⟩
  simp [CountEtl.hibpEtl, CountEtl.execBatches_append]

/-! ### Encoded-identifier properties (claims C9, C10) -/

namespace Ascii85

theorem encLen_add4 (n : Nat) : encLen (n + 4) = encLen n + 5 := by
  unfold encLen
  have h1 : (n + 4) / 4 = n / 4 + 1 := by omega
  have h2 : (n + 4) % 4 = n % 4 := by omega
  rw [h1, h2]
  by_cases h : n % 4 = 0 <;> simp [h] <;> omega

theorem encGroup_length (v : Nat) : (encGroup v).length = 5 := rfl

theorem encode_length_le : ∀ bs : List Nat, (Encode bs).length ≤ encLen bs.length
  | [] => by simp [Encode, encLen]
  | [b0] => by simp [Encode, encLen, encGroup]
  | [b0, b1] => by simp [Encode, encLen, encGroup]
  | [b0, b1, b2] => by simp [Encode, encLen, encGroup]
  | b0 :: b1 :: b2 :: b3 :: rest => by
    have ih := encode_length_le rest
    have h4 : rest.length + 1 + 1 + 1 + 1 = rest.length + 4 := rfl
    by_cases hv : pack4 [b0, b1, b2, b3] = 0
    · simp only [Encode, if_pos hv, List.length_cons, h4, encLen_add4]
      omega
    · simp only [Encode, if_neg hv, List.length_append, List.length_cons,
        encGroup_length, h4, encLen_add4]
      omega

theorem encode_length_eq : ∀ bs : List Nat, hasZeroGroup bs = false →
    (Encode bs).length = encLen bs.length
  | [], _ => by simp [Encode, encLen]
  | [b0], _ => by simp [Encode, encLen, encGroup]
  | [b0, b1], _ => by simp [Encode, encLen, encGroup]
  | [b0, b1, b2], _ => by simp [Encode, encLen, encGroup]
  | b0 :: b1 :: b2 :: b3 :: rest, h => by
    have hsplit : ¬ pack4 [b0, b1, b2, b3] = 0 ∧ hasZeroGroup rest = false := by
      by_cases hv : pack4 [b0, b1, b2, b3] = 0 <;> simp [hasZeroGroup, hv] at h ⊢
      exact h
    have ih := encode_length_eq rest hsplit.2
    have h4 : rest.length + 1 + 1 + 1 + 1 = rest.length + 4 := rfl
    simp only [Encode, if_neg hsplit.1, List.length_cons, List.length_append,
      encGroup_length, h4, encLen_add4]
    omega

/-- Membership in the digit-character group: every entry of `encGroup v` is a
digit character in 33–117. -/
theorem mem_encGroup (v c : Nat) (hc : c ∈ encGroup v) : 33 ≤ c ∧ c ≤ 117 := by
  simp only [encGroup, List.mem_cons, List.not_mem_nil, or_false] at hc
  have h1 := Nat.mod_lt (v / 52200625) (show 0 < 85 by norm_num)
  have h2 := Nat.mod_lt (v / 614125) (show 0 < 85 by norm_num)
  have h3 := Nat.mod_lt (v / 7225) (show 0 < 85 by norm_num)
  have h4 := Nat.mod_lt (v / 85) (show 0 < 85 by norm_num)
  have h5 := Nat.mod_lt v (show 0 < 85 by norm_num)
  rcases hc with h | h | h | h | h <;> subst h <;> omega

theorem encode_mem_printable : ∀ bs : List Nat, ∀ c ∈ Encode bs, c = 122 ∨ (33 ≤ c ∧ c ≤ 117)
  | [], c, hc => by simp [Encode] at hc
  | [b0], c, hc => by
    simp only [Encode] at hc
    exact Or.inr (mem_encGroup _ c (List.take_subset _ _ hc))
  | [b0, b1], c, hc => by
    simp only [Encode] at hc
    exact Or.inr (mem_encGroup _ c (List.take_subset _ _ hc))
  | [b0, b1, b2], c, hc => by
    simp only [Encode] at hc
    exact Or.inr (mem_encGroup _ c (List.take_subset _ _ hc))
  | b0 :: b1 :: b2 :: b3 :: rest, c, hc => by
    by_cases hv : pack4 [b0, b1, b2, b3] = 0
    · simp only [Encode, if_pos hv, List.mem_cons] at hc
      rcases hc with h | h
      · left; exact h
      · exact encode_mem_printable rest c h
    · simp only [Encode, if_neg hv, List.mem_append] at hc
      rcases hc with h | h
      · exact Or.inr (mem_encGroup _ c h)
      · exact encode_mem_printable rest c h

end Ascii85

/-- ASCII byte sequences are valid UTF-8: if every byte is below 128, the
validation loop accepts with any sufficient fuel. -/
theorem utf8ValidAux_of_ascii (fuel : Nat) (l : List Nat) (hf : l.length ≤ fuel)
    (h : ∀ c ∈ l, c < 128) : utf8ValidAux fuel l = true := by
  induction fuel generalizing l with
  | zero =>
    cases l with
    | nil => rfl
    | cons b rest => simp at hf
  | succ f ih =>
    cases l with
    | nil => rfl
    | cons b rest =>
      have hb : b < 128 := h b (by simp)
      simp only [utf8ValidAux, if_pos hb]
      refine ih rest ?_ (fun c hc => h c (by simp [hc]))
      simp only [List.length_cons] at hf
      omega

/-- ASCII byte sequences are valid UTF-8: if every byte is below 128,
`utf8.ValidString` accepts. -/
theorem utf8Valid_of_ascii (l : List Nat) (h : ∀ c ∈ l, c < 128) : utf8Valid l = true :=
  utf8ValidAux_of_ascii l.length l (Nat.le_refl _) h

/-- A hex digit's value is below 16. -/
theorem fromHexChar_lt (c : Char) (v : Nat) (h : Hibp85.fromHexChar c = some v) : v < 16 := by
  unfold Hibp85.fromHexChar at h
  split at h
  · simp only [Option.some.injEq] at h; omega
  · split at h
    · simp only [Option.some.injEq] at h; omega
    · split at h
      · simp only [Option.some.injEq] at h; omega
      · exact Option.noConfusion h

/-- Inversion of `Hibp85.hexDecode` on a two-character step. -/
theorem hexDecode_cons_inv (c1 c2 : Char) (rest : List Char) (bs : List Nat)
    (h : Hibp85.hexDecode (c1 :: c2 :: rest) = some bs) :
    ∃ hv lv tl, Hibp85.fromHexChar c1 = some hv ∧ Hibp85.fromHexChar c2 = some lv ∧
      Hibp85.hexDecode rest = some tl ∧ bs = (hv * 16 + lv) :: tl := by
  rw [show Hibp85.hexDecode (c1 :: c2 :: rest) =
      (match Hibp85.fromHexChar c1, Hibp85.fromHexChar c2, Hibp85.hexDecode rest with
       | some hv, some lv, some bs2 => some ((hv * 16 + lv) :: bs2)
       | _, _, _ => none) from rfl] at h
  rcases h1 : Hibp85.fromHexChar c1 with - | hv <;> rw [h1] at h
  · exact Option.noConfusion h
  rcases h2 : Hibp85.fromHexChar c2 with - | lv <;> rw [h2] at h
  · exact Option.noConfusion h
  rcases h3 : Hibp85.hexDecode rest with - | tl <;> rw [h3] at h
  · exact Option.noConfusion h
  simp only [Option.some.injEq] at h
  exact ⟨hv, lv, tl, rfl, rfl, rfl, h.symm⟩

/-- `Hibp85.hexDecode` only produces bytes. -/
theorem hexDecode_bytes_lt : ∀ s : List Char, ∀ bs : List Nat,
    Hibp85.hexDecode s = some bs → ∀ b ∈ bs, b < 256
  | [], bs, h => by
    simp only [Hibp85.hexDecode, Option.some.injEq] at h
    subst h; simp
  | [c], bs, h => by exact Option.noConfusion h
  | c1 :: c2 :: rest, bs, h => by
    obtain ⟨hv, lv, tl, h1, h2, h3, hb⟩ := hexDecode_cons_inv c1 c2 rest bs h
    subst hb
    intro b hb
    have hhv := fromHexChar_lt c1 hv h1
    have hlv := fromHexChar_lt c2 lv h2
    rcases List.mem_cons.mp hb with h | h
    · omega
    · exact hexDecode_bytes_lt rest tl h3 b h

/-- `Hibp85.hexDecode` halves the length: a decoded hex string has twice as
many characters as the raw bytes it denotes. -/
theorem hexDecode_length : ∀ s : List Char, ∀ bs : List Nat,
    Hibp85.hexDecode s = some bs → s.length = 2 * bs.length
  | [], bs, h => by
    simp only [Hibp85.hexDecode, Option.some.injEq] at h
    subst h; rfl
  | [c], bs, h => by exact Option.noConfusion h
  | c1 :: c2 :: rest, bs, h => by
    obtain ⟨hv, lv, tl, h1, h2, h3, hb⟩ := hexDecode_cons_inv c1 c2 rest bs h
    subst hb
    have := hexDecode_length rest tl h3
    simp only [List.length_cons]
    omega

/-- Claim C9, counterexample.  The encoded identifier is neither fixed-width
nor always strictly shorter than the hex form: the 8-character hex digests
`00000000` and `000000ff` decode to 4-byte strings whose encodings have
lengths 1 (the `z` abbreviation) and 5 respectively, and the 2-character hex
digest `ab` encodes to an identifier of length 2 — equal to, not shorter
than, its hex representation. -/
theorem C9_fixed_width_counterexample :
    Hibp85.hexDecode (String.toList "00000000") = some [0, 0, 0, 0] ∧
    Hibp85.hexDecode (String.toList "000000ff") = some [0, 0, 0, 255] ∧
    (String.toList "00000000").length = (String.toList "000000ff").length ∧
    (Ascii85.Encode [0, 0, 0, 0]).length = 1 ∧
    (Ascii85.Encode [0, 0, 0, 255]).length = 5 ∧
    Hibp85.hexDecode (String.toList "ab") = some [171] ∧
    (Ascii85.Encode [171]).length = (String.toList "ab").length := by decide

/-- Claim C9 as amended: for a valid hex key of at least two bytes the
re-encoded identifier is strictly shorter than the hex representation, and
identifiers produced from hex digests of the same length have the same
encoded length provided no aligned 4-byte group is all zero (the `z`
abbreviation, which only shortens further, is the sole source of width
variation; a 1-byte digest encodes to its own hex length). -/
theorem C9_reencoded_identifier_length (s : List Char) (bs : List Nat)
    (hdec : Hibp85.hexDecode s = some bs) :
    (2 ≤ bs.length → (Ascii85.Encode bs).length < s.length) ∧
    (Ascii85.hasZeroGroup bs = false →
      (Ascii85.Encode bs).length = Ascii85.encLen bs.length) := by
  have hlen := hexDecode_length s bs hdec
  constructor
  · intro h2
    have hle := Ascii85.encode_length_le bs
    have : Ascii85.encLen bs.length < 2 * bs.length := by
      unfold Ascii85.encLen
      by_cases h4 : bs.length % 4 = 0
      · rw [if_pos h4]; omega
      · rw [if_neg h4]; omega
    omega
  · exact Ascii85.encode_length_eq bs

/-- Claim C9 amended-theorem witness at the 4-byte hex digest `a0b1c2d3`:
its 5-character encoding is strictly shorter than the 8-character hex, and
matches the no-`z` width formula. -/
theorem C9_reencoded_identifier_length_witness :
    ((Ascii85.Encode [160, 177, 194, 211]).length < (String.toList "a0b1c2d3").length) ∧
    (Ascii85.Encode [160, 177, 194, 211]).length = Ascii85.encLen 4 :=
  ⟨(C9_reencoded_identifier_length (String.toList "a0b1c2d3") [160, 177, 194, 211]
      (by decide)).1 (by decide),
   (C9_reencoded_identifier_length (String.toList "a0b1c2d3") [160, 177, 194, 211]
      (by decide)).2 (by decide)⟩

/-- Claim C10: the dense re-encoding emits only printable ASCII (bytes
33–126: the digit characters 33–117 and `z` = 122), hence the encoded
identifier is always valid UTF-8 and the fatal `utf8.ValidString` check in
the scan loop can never take its `log.Fatal` branch — the loop body always
produces a successor state. -/
theorem C10_fatal_utf8_branch_unreachable :
    (∀ bs : List Nat, (Ascii85.Encode bs).all (fun c => 33 ≤ c && c ≤ 126) = true) ∧
    (∀ bs : List Nat, utf8Valid (Ascii85.Encode bs) = true) ∧
    (∀ (B : Nat) (db : String → List (List Nat) → Bool) (st : Hibp85.EtlState)
        (line : List Char), (Hibp85.hibpEtlLine B db st line).isSome = true) := by
  have hprint : ∀ bs : List Nat, ∀ c ∈ Ascii85.Encode bs, c < 128 := by
    intro bs c hc
    rcases Ascii85.encode_mem_printable bs c hc with h | h <;> omega
  have hvalid : ∀ bs : List Nat, utf8Valid (Ascii85.Encode bs) = true :=
    fun bs => utf8Valid_of_ascii _ (hprint bs)
  refine ⟨?_, hvalid, ?_⟩
  · intro bs
    rw [List.all_eq_true]
    intro c hc
    rcases Ascii85.encode_mem_printable bs c hc with h | h <;> simp <;> omega
  · intro B db st line
    unfold Hibp85.hibpEtlLine
    rcases hsp : splitN2 line with - | ⟨d0, tl⟩
    · rfl
    · rcases tl with - | ⟨d1, tl2⟩
      · rfl
      · rcases tl2 with - | ⟨x, xs⟩
        · cases hhex : Hibp85.hexDecode d0 with
          | none => simp [hhex]
          | some hash =>
            simp [hhex, hvalid]
            split <;> rfl
        · rfl

/-! ### Batch accounting (claims C5, C6, C7) -/

namespace CountEtl

/-- Shape of one loop iteration on an accepted line: exactly one row is
appended, and the batch is flushed exactly when the incremented count hits a
multiple of the batch size. -/
theorem hibpEtlLine_accepted (B : Nat) (db : String → List SqlArg → Bool)
    (st : EtlState) (line : List Char) (h : acceptedCountLine line = true) :
    ∃ row, hibpEtlLine B db st line =
      if (st.count + 1) % B = 0 then
        { count := st.count + 1,
          errors := st.errors + hibpProcessRowDataBatch db (st.rowData ++ [row]),
          rowData := [],
          events := st.events ++ [batchEvent db (st.rowData ++ [row])] }
      else
        { st with count := st.count + 1, rowData := st.rowData ++ [row] } := by
  unfold acceptedCountLine at h
  rcases hsp : splitN2 line with - | ⟨d0, - | ⟨d1, - | ⟨x, xs⟩⟩⟩ <;> rw [hsp] at h
  · exact Bool.noConfusion h
  · exact Bool.noConfusion h
  · have h2 : (goAtoi d1).isSome = true := h
    rcases hn : goAtoi d1 with - | n
    · rw [hn] at h2; exact Bool.noConfusion h2
    · refine ⟨⟨goToLower d0, n⟩, ?_⟩
      unfold hibpEtlLine
      rw [hsp]
      simp only [hn]
  · exact Bool.noConfusion h

/-- Streaming invariant on accepted lines: with `count = q*B + r` rows
accepted, the buffer holds exactly `r` rows and exactly `q` full batches of
size `B` have been flushed. -/
theorem foldl_accepted_inv (B : Nat) (db : String → List SqlArg → Bool)
    (lines : List (List Char)) (st : EtlState) (q r : Nat)
    (hacc : ∀ l ∈ lines, acceptedCountLine l = true)
    (hcount : st.count = q * B + r) (hr : r < B)
    (hbuf : st.rowData.length = r)
    (hsz : execSizes st.events = List.replicate q B) :
    ∃ q2 r2, r2 < B ∧
      (lines.foldl (hibpEtlLine B db) st).count = q2 * B + r2 ∧
      (lines.foldl (hibpEtlLine B db) st).count = st.count + lines.length ∧
      (lines.foldl (hibpEtlLine B db) st).rowData.length = r2 ∧
      execSizes (lines.foldl (hibpEtlLine B db) st).events = List.replicate q2 B := by
  induction lines generalizing st q r with
  | nil => exact ⟨q, r, hr, by simpa using hcount, by simp, hbuf, hsz⟩
  | cons l rest ih =>
    obtain ⟨row, hrow⟩ := hibpEtlLine_accepted B db st l (hacc l (by simp))
    simp only [List.foldl_cons, hrow]
    have hmod : (st.count + 1) % B = (r + 1) % B := by
      rw [hcount, show q * B + r + 1 = (r + 1) + q * B from by ring,
        Nat.add_mul_mod_self_right]
    by_cases hfl : (st.count + 1) % B = 0
    · rw [if_pos hfl]
      have hrB : r + 1 = B := by
        rcases Nat.lt_or_ge (r + 1) B with h1 | h1
        · rw [hmod, Nat.mod_eq_of_lt h1] at hfl; omega
        · omega
      obtain ⟨q2, r2, ha, hb, hc, hd, he⟩ :=
        ih { count := st.count + 1,
             errors := st.errors + hibpProcessRowDataBatch db (st.rowData ++ [row]),
             rowData := [],
             events := st.events ++ [batchEvent db (st.rowData ++ [row])] }
          (q + 1) 0 (fun x hx => hacc x (by simp [hx]))
          (show st.count + 1 = (q + 1) * B + 0 by rw [Nat.succ_mul]; omega)
          (by omega) (show ([] : List hibpData).length = 0 from rfl)
          (show execSizes (st.events ++ [batchEvent db (st.rowData ++ [row])]) =
            List.replicate (q + 1) B by
            simp only [execSizes_append, hsz, batchEvent, execSizes_cons, execSizes_nil,
              hibpBatchArgs_length, List.length_append, hbuf, List.length_cons,
              List.length_nil, List.append_nil]
            rw [show 2 * (r + (0 + 1)) / 2 = r + 1 from by omega, hrB, ← List.replicate_succ'])
      refine ⟨q2, r2, ha, hb, ?_, hd, he⟩
      rw [hc]
      simp only [List.length_cons]
      omega
    · rw [if_neg hfl]
      have hr1 : r + 1 < B := by
        rcases Nat.lt_or_ge (r + 1) B with h1 | h1
        · exact h1
        · have hrb : r + 1 = B := by omega
          rw [hmod, hrb, Nat.mod_self] at hfl
          omega
      obtain ⟨q2, r2, ha, hb, hc, hd, he⟩ :=
        ih { count := st.count + 1, errors := st.errors,
             rowData := st.rowData ++ [row], events := st.events }
          q (r + 1) (fun x hx => hacc x (by simp [hx]))
          (show st.count + 1 = q * B + (r + 1) by omega)
          hr1 (show (st.rowData ++ [row]).length = r + 1 by simp [hbuf])
          (show execSizes st.events = List.replicate q B from hsz)
      refine ⟨q2, r2, ha, hb, ?_, hd, he⟩
      rw [hc]
      simp only [List.length_cons]
      omega

end CountEtl

/-- Claim C5: on an input of exactly `2*B + 1` accepted lines (batch size
`B ≥ 2`, satisfied by the source constant `BATCH_SIZE = 10000`), the run
performs exactly three batch-write invocations, of sizes `B`, `B` and `1` in
that order — the last being the unconditional flush of the partial final
batch. -/
theorem C5_three_batches_of_sizes_B_B_1 (B : Nat) (db : String → List SqlArg → Bool)
    (ledgerOk : Bool) (lines : List (List Char)) (hB : 2 ≤ B)
    (hacc : ∀ l ∈ lines, CountEtl.acceptedCountLine l = true)
    (hlen : lines.length = 2 * B + 1) :
    CountEtl.execSizes (CountEtl.hibpEtl B db ledgerOk lines).events = [B, B, 1] := by
  obtain ⟨q2, r2, hr2, hc1, hc2, hbuf, hsz⟩ :=
    CountEtl.foldl_accepted_inv B db lines CountEtl.initState 0 0 hacc
      (by simp [CountEtl.initState]) (by omega) rfl rfl
  rw [hlen, show CountEtl.initState.count = 0 from rfl] at hc2
  rw [hc2] at hc1
  have hq : q2 = 2 ∧ r2 = 1 := by
    rcases q2 with - | - | - | q3
    · simp at hc1; omega
    · simp at hc1; omega
    · omega
    · exfalso
      rw [show (q3 + 3) * B = q3 * B + 3 * B from by ring] at hc1
      omega
  unfold CountEtl.hibpEtl
  simp only [CountEtl.execSizes_append, hsz, CountEtl.batchEvent,
    CountEtl.execSizes_cons, CountEtl.execSizes_nil, CountEtl.hibpBatchArgs_length,
    hbuf, hq.1, hq.2]
  rw [show 2 * 1 / 2 = 1 from rfl]
  rfl

/-- Claim C5 witness: batch size 2, five accepted lines `a:1`, three batch
writes of sizes 2, 2, 1. -/
theorem C5_three_batches_of_sizes_B_B_1_witness :
    CountEtl.execSizes (CountEtl.hibpEtl 2 (fun _ _ => true) true
      (List.replicate 5 ['a', ':', '1'])).events = [2, 2, 1] :=
  C5_three_batches_of_sizes_B_B_1 2 (fun _ _ => true) true
    (List.replicate 5 ['a', ':', '1']) (by omega) (by decide) (by decide)

namespace CountEtl

/-- Step relation between a run against an arbitrary store and the same run
against an always-succeeding store: counts, buffers and issued batches
coincide; the error counter differs exactly by the number of failed batch
`Exec`s recorded so far. -/
theorem hibpEtlLine_db_rel (B : Nat) (db : String → List SqlArg → Bool)
    (l : List Char) (c er rd ev erT evT)
    (h3 : execBatches ev = execBatches evT)
    (h4 : er = erT + failCount ev)
    (h5 : failCount evT = 0) :
    (hibpEtlLine B db ⟨c, er, rd, ev⟩ l).count =
      (hibpEtlLine B (fun _ _ => true) ⟨c, erT, rd, evT⟩ l).count ∧
    (hibpEtlLine B db ⟨c, er, rd, ev⟩ l).rowData =
      (hibpEtlLine B (fun _ _ => true) ⟨c, erT, rd, evT⟩ l).rowData ∧
    execBatches (hibpEtlLine B db ⟨c, er, rd, ev⟩ l).events =
      execBatches (hibpEtlLine B (fun _ _ => true) ⟨c, erT, rd, evT⟩ l).events ∧
    (hibpEtlLine B db ⟨c, er, rd, ev⟩ l).errors =
      (hibpEtlLine B (fun _ _ => true) ⟨c, erT, rd, evT⟩ l).errors +
        failCount (hibpEtlLine B db ⟨c, er, rd, ev⟩ l).events ∧
    failCount (hibpEtlLine B (fun _ _ => true) ⟨c, erT, rd, evT⟩ l).events = 0 := by
  unfold hibpEtlLine
  rcases hsp : splitN2 l with - | ⟨d0, - | ⟨d1, - | ⟨x, xs⟩⟩⟩
  · exact ⟨rfl, rfl, h3, show er + 1 = erT + 1 + failCount ev by omega, h5⟩
  · exact ⟨rfl, rfl, h3, show er + 1 = erT + 1 + failCount ev by omega, h5⟩
  · rcases hn : goAtoi d1 with - | n
    · simp only [hn]
      refine ⟨?_, ?_, ?_, ?_, ?_⟩ <;> first | trivial | omega
    · simp only [hn]
      by_cases hfl : (c + 1) % B = 0
      · simp only [if_pos hfl]
        cases hdb : db (hibpBatchSql (rd ++ [⟨goToLower d0, n⟩]))
            (hibpBatchArgs (rd ++ [⟨goToLower d0, n⟩])) <;>
          simp only [hibpProcessRowDataBatch, batchEvent, hdb, if_pos, if_neg,
            Bool.false_eq_true, if_false, if_true, execBatches_append, execBatches_cons,
            execBatches_nil, failCount_append, failCount_cons, failCount_nil, h3] <;>
          refine ⟨?_, ?_, ?_, ?_, ?_⟩ <;>
          first
            | trivial
            | rfl
            | omega
      · simp only [if_neg hfl]
        refine ⟨?_, ?_, ?_, ?_, ?_⟩ <;> trivial
  · exact ⟨rfl, rfl, h3, show er + 1 = erT + 1 + failCount ev by omega, h5⟩

/-- The step relation of `hibpEtlLine_db_rel` is preserved across the whole
scan loop. -/
theorem foldl_db_rel (B : Nat) (db : String → List SqlArg → Bool)
    (lines : List (List Char)) (st stT : EtlState)
    (h1 : st.count = stT.count) (h2 : st.rowData = stT.rowData)
    (h3 : execBatches st.events = execBatches stT.events)
    (h4 : st.errors = stT.errors + failCount st.events)
    (h5 : failCount stT.events = 0) :
    (lines.foldl (hibpEtlLine B db) st).count =
      (lines.foldl (hibpEtlLine B (fun _ _ => true)) stT).count ∧
    (lines.foldl (hibpEtlLine B db) st).rowData =
      (lines.foldl (hibpEtlLine B (fun _ _ => true)) stT).rowData ∧
    execBatches (lines.foldl (hibpEtlLine B db) st).events =
      execBatches (lines.foldl (hibpEtlLine B (fun _ _ => true)) stT).events ∧
    (lines.foldl (hibpEtlLine B db) st).errors =
      (lines.foldl (hibpEtlLine B (fun _ _ => true)) stT).errors +
        failCount (lines.foldl (hibpEtlLine B db) st).events ∧
    failCount (lines.foldl (hibpEtlLine B (fun _ _ => true)) stT).events = 0 := by
  induction lines generalizing st stT with
  | nil => exact ⟨h1, h2, h3, h4, h5⟩
  | cons l rest ih =>
    obtain ⟨c, er, rd, ev⟩ := st
    obtain ⟨cT, erT, rdT, evT⟩ := stT
    simp only [] at h1 h2
    subst h1
    subst h2
    obtain ⟨k1, k2, k3, k4, k5⟩ := hibpEtlLine_db_rel B db l c er rd ev erT evT h3 h4 h5
    simp only [List.foldl_cons]
    exact ih (hibpEtlLine B db ⟨c, er, rd, ev⟩ l)
      (hibpEtlLine B (fun _ _ => true) ⟨c, erT, rd, evT⟩ l) k1 k2 k3 k4 k5

/-- Every event appended during the scan loop is a batch-upsert `Exec`. -/
theorem hibpEtlLine_events (B : Nat) (db : String → List SqlArg → Bool)
    (st : EtlState) (l : List Char) :
    ∃ new, (hibpEtlLine B db st l).events = st.events ++ new ∧
      ∀ e ∈ new, e.isExec = true := by
  unfold hibpEtlLine
  rcases hsp : splitN2 l with - | ⟨d0, - | ⟨d1, - | ⟨x, xs⟩⟩⟩
  · exact ⟨[], by simp, by simp⟩
  · exact ⟨[], by simp, by simp⟩
  · rcases hn : goAtoi d1 with - | n
    · simp only [hn]
      exact ⟨[], by simp, by simp⟩
    · simp only [hn]
      by_cases hfl : (st.count + 1) % B = 0
      · simp only [if_pos hfl]
        exact ⟨[batchEvent db (st.rowData ++ [⟨goToLower d0, n⟩])], rfl,
          by intro e he; simp at he; subst he; rfl⟩
      · simp only [if_neg hfl]
        exact ⟨[], by simp, by simp⟩
  · exact ⟨[], by simp, by simp⟩

/-- Across the whole scan loop, the trace only grows by batch-upsert `Exec`
events. -/
theorem foldl_events_all_exec (B : Nat) (db : String → List SqlArg → Bool)
    (lines : List (List Char)) (st : EtlState)
    (h : ∀ e ∈ st.events, e.isExec = true) :
    ∀ e ∈ (lines.foldl (hibpEtlLine B db) st).events, e.isExec = true := by
  induction lines generalizing st with
  | nil => exact h
  | cons l rest ih =>
    simp only [List.foldl_cons]
    obtain ⟨new, hev, hnew⟩ := hibpEtlLine_events B db st l
    refine ih (hibpEtlLine B db st l) ?_
    rw [hev]
    intro e he
    rcases List.mem_append.mp he with h1 | h1
    · exact h e h1
    · exact hnew e h1

end CountEtl

/-- Claim C6: when a batch upsert's execution fails, the run's error counter
grows by exactly one per failed batch — independent of the batch's row
count — and nothing else changes: compared with the same run against an
always-succeeding store, the accepted-row count, the final buffer, and the
entire sequence of issued batches (each attempted exactly once, none
retried, none skipped — so the run neither aborts nor stops processing
subsequent lines and batches) are identical, and the final error counter
exceeds the perfect-store error counter by exactly the number of failed
batch `Exec`s. -/
theorem C6_batch_failure_adds_one_error (B : Nat) (db : String → List SqlArg → Bool)
    (ledgerOk : Bool) (lines : List (List Char)) :
    (CountEtl.hibpEtl B db ledgerOk lines).count =
      (CountEtl.hibpEtl B (fun _ _ => true) ledgerOk lines).count ∧
    CountEtl.execBatches (CountEtl.hibpEtl B db ledgerOk lines).events =
      CountEtl.execBatches (CountEtl.hibpEtl B (fun _ _ => true) ledgerOk lines).events ∧
    (CountEtl.hibpEtl B db ledgerOk lines).errors =
      (CountEtl.hibpEtl B (fun _ _ => true) ledgerOk lines).errors +
        CountEtl.failCount (CountEtl.hibpEtl B db ledgerOk lines).events ∧
    CountEtl.failCount (CountEtl.hibpEtl B (fun _ _ => true) ledgerOk lines).events = 0 := by
  obtain ⟨k1, k2, k3, k4, k5⟩ :=
    CountEtl.foldl_db_rel B db lines CountEtl.initState CountEtl.initState rfl rfl rfl rfl rfl
  unfold CountEtl.hibpEtl
  simp only [CountEtl.execBatches_append, CountEtl.failCount_append,
    CountEtl.execBatches_cons, CountEtl.failCount_cons, CountEtl.execBatches_nil,
    CountEtl.failCount_nil, CountEtl.batchEvent]
  refine ⟨k1, ?_, ?_, ?_⟩
  · rw [k2, k3]
  · rw [k2]
    unfold CountEtl.hibpProcessRowDataBatch
    cases hdb : db (CountEtl.hibpBatchSql
        ((lines.foldl (CountEtl.hibpEtlLine B (fun _ _ => true)) CountEtl.initState).rowData))
        (CountEtl.hibpBatchArgs
        ((lines.foldl (CountEtl.hibpEtlLine B (fun _ _ => true)) CountEtl.initState).rowData)) <;>
      simp [hdb] <;> omega
  · simp [k5]

/-- Claim C7: every completed run writes exactly one ledger entry, as the
very last store operation — strictly after the unconditional final batch
flush (itself the last batch `Exec`), never before any batch — and its state
is `"error"` exactly when the run's accumulated error counter is positive,
`"done"` otherwise. -/
theorem C7_one_ledger_entry_after_all_flushes (B : Nat) (db : String → List SqlArg → Bool)
    (ledgerOk : Bool) (lines : List (List Char)) :
    ∃ before fb fok,
      (CountEtl.hibpEtl B db ledgerOk lines).events =
        before ++ [Event.exec fb fok,
          Event.ledger "pwned-passwords-sha1"
            (CountEtl.hibpEtl B db ledgerOk lines).state ledgerOk] ∧
      (∀ e ∈ before, e.isExec = true) ∧
      (CountEtl.hibpEtl B db ledgerOk lines).state =
        (if (CountEtl.hibpEtl B db ledgerOk lines).errors > 0 then "error" else "done") ∧
      ((CountEtl.hibpEtl B db ledgerOk lines).events.filter
        (fun e => ! e.isExec)).length = 1 := by
  have hall : ∀ e ∈ (lines.foldl (CountEtl.hibpEtlLine B db) CountEtl.initState).events,
      e.isExec = true :=
    CountEtl.foldl_events_all_exec B db lines CountEtl.initState (by simp [CountEtl.initState])
  refine ⟨(lines.foldl (CountEtl.hibpEtlLine B db) CountEtl.initState).events,
    CountEtl.hibpBatchArgs (lines.foldl (CountEtl.hibpEtlLine B db) CountEtl.initState).rowData,
    db (CountEtl.hibpBatchSql
        (lines.foldl (CountEtl.hibpEtlLine B db) CountEtl.initState).rowData)
      (CountEtl.hibpBatchArgs
        (lines.foldl (CountEtl.hibpEtlLine B db) CountEtl.initState).rowData),
    ?_, hall, rfl, ?_⟩
  · unfold CountEtl.hibpEtl
    simp [CountEtl.batchEvent]
  · unfold CountEtl.hibpEtl
    simp only [List.filter_append]
    rw [List.filter_eq_nil_iff.mpr (fun e he => by simp [hall e he])]
    simp [CountEtl.batchEvent, Event.isExec]

/-! ### The ascii85 round-trip (claim C3) -/

namespace Ascii85

/-- `DecodeLoop` is a left-to-right state machine, so it distributes over
list append. -/
theorem DecodeLoop_append (xs ys : List Nat) (v nb : Nat) :
    DecodeLoop (xs ++ ys) v nb =
      match DecodeLoop xs v nb with
      | none => none
      | some (o, v2, nb2) =>
        match DecodeLoop ys v2 nb2 with
        | none => none
        | some (o2, vf, nbf) => some (o ++ o2, vf, nbf) := by
  induction xs generalizing v nb with
  | nil =>
    simp only [List.nil_append, DecodeLoop]
    cases DecodeLoop ys v nb with
    | none => rfl
    | some r => obtain ⟨o2, vf, nbf⟩ := r; simp
  | cons b xs ih =>
    simp only [List.cons_append]
    conv_lhs => rw [DecodeLoop]
    conv_rhs => rw [DecodeLoop]
    by_cases h1 : b ≤ 32
    · simp only [if_pos h1, ih]
    · simp only [if_neg h1]
      by_cases h2 : b = 122 ∧ nb = 0
      · simp only [if_pos h2, ih]
        cases DecodeLoop xs 0 0 with
        | none => rfl
        | some r =>
          obtain ⟨o, v2, nb2⟩ := r
          dsimp only [prependBytes]
          cases DecodeLoop ys v2 nb2 with
          | none => rfl
          | some r2 =>
            obtain ⟨o2, vf, nbf⟩ := r2
            simp [prependBytes]
      · simp only [if_neg h2]
        by_cases h3 : 33 ≤ b ∧ b ≤ 117
        · simp only [if_pos h3]
          by_cases h4 : nb = 4
          · simp only [if_pos h4, ih]
            cases DecodeLoop xs 0 0 with
            | none => rfl
            | some r =>
              obtain ⟨o, v2, nb2⟩ := r
              dsimp only [prependBytes]
              cases DecodeLoop ys v2 nb2 with
              | none => rfl
              | some r2 =>
                obtain ⟨o2, vf, nbf⟩ := r2
                simp [prependBytes]
          · simp only [if_neg h4, ih]
        · simp only [if_neg h3]

/-- Consuming one digit character below the fifth position accumulates into
the 32-bit value. -/
theorem DecodeLoop_digit (rest : List Nat) (v nb d : Nat) (hd : d < 85) (hnb : ¬ nb = 4) :
    DecodeLoop ((d + 33) :: rest) v nb = DecodeLoop rest (decodeStep v (d + 33)) (nb + 1) := by
  conv_lhs => rw [DecodeLoop]
  rw [if_neg (by omega : ¬ d + 33 ≤ 32),
    if_neg (by rintro ⟨h1, -⟩; omega : ¬(d + 33 = 122 ∧ nb = 0)),
    if_pos (by omega : 33 ≤ d + 33 ∧ d + 33 ≤ 117),
    if_neg hnb]

/-- Consuming the fifth digit character flushes four output bytes and resets
the group state. -/
theorem DecodeLoop_digit5 (rest : List Nat) (v d : Nat) (hd : d < 85) :
    DecodeLoop ((d + 33) :: rest) v 4 =
      prependBytes (unpack4 (decodeStep v (d + 33))) (DecodeLoop rest 0 0) := by
  conv_lhs => rw [DecodeLoop]
  rw [if_neg (by omega : ¬ d + 33 ≤ 32),
    if_neg (by rintro ⟨h1, -⟩; omega : ¬(d + 33 = 122 ∧ (4 : Nat) = 0)),
    if_pos (by omega : 33 ≤ d + 33 ∧ d + 33 ≤ 117),
    if_pos rfl]

/-- One step of digit accumulation in terms of division: consuming the
base-85 digit of `v` at weight `a` moves the accumulator from `v / (a * 85)`
to `v / a`. -/
theorem decodeStep_chain (v a b : Nat) (hv : v < 4294967296) (hab : a * 85 = b) :
    decodeStep (v / b) (v / a % 85 + 33) = v / a := by
  subst hab
  unfold decodeStep
  have h1 : v / a / 85 = v / (a * 85) := Nat.div_div_eq_div_mul v a 85
  have h2 : 85 * (v / a / 85) + v / a % 85 = v / a := Nat.div_add_mod (v / a) 85
  have h3 : v / a ≤ v := Nat.div_le_self v a
  rw [show v / a % 85 + 33 - 33 = v / a % 85 from by omega,
    show v / (a * 85) * 85 + v / a % 85 = v / a from by omega]
  exact Nat.mod_eq_of_lt (by omega)

/-- Decoding the five digit characters of a 32-bit group value recovers its
four big-endian bytes. -/
theorem DecodeLoop_encGroup (v : Nat) (hv : v < 4294967296) :
    DecodeLoop (encGroup v) 0 0 = some (unpack4 v, 0, 0) := by
  have hm : ∀ x : Nat, x % 85 < 85 := fun x => Nat.mod_lt _ (by norm_num)
  have s0 : decodeStep 0 (v / 52200625 % 85 + 33) = v / 52200625 := by
    rw [show (0 : Nat) = v / 4437053125 from (Nat.div_eq_of_lt (by omega)).symm]
    exact decodeStep_chain v 52200625 4437053125 hv (by norm_num)
  have s1 : decodeStep (v / 52200625) (v / 614125 % 85 + 33) = v / 614125 :=
    decodeStep_chain v 614125 52200625 hv (by norm_num)
  have s2 : decodeStep (v / 614125) (v / 7225 % 85 + 33) = v / 7225 :=
    decodeStep_chain v 7225 614125 hv (by norm_num)
  have s3 : decodeStep (v / 7225) (v / 85 % 85 + 33) = v / 85 :=
    decodeStep_chain v 85 7225 hv (by norm_num)
  have s4 : decodeStep (v / 85) (v % 85 + 33) = v := by
    have s := decodeStep_chain v 1 85 hv (by norm_num)
    rwa [Nat.div_one] at s
  show DecodeLoop [v / 52200625 % 85 + 33, v / 614125 % 85 + 33, v / 7225 % 85 + 33,
      v / 85 % 85 + 33, v % 85 + 33] 0 0 = some (unpack4 v, 0, 0)
  rw [DecodeLoop_digit _ _ _ _ (hm _) (by omega), s0,
    DecodeLoop_digit _ _ _ _ (hm _) (by omega), s1,
    DecodeLoop_digit _ _ _ _ (hm _) (by omega), s2,
    DecodeLoop_digit _ _ _ _ (hm _) (by omega), s3,
    show (0 : Nat) + 1 + 1 + 1 + 1 = 4 from rfl,
    DecodeLoop_digit5 _ _ _ (hm _), s4]
  simp [DecodeLoop, prependBytes]

/-- `pad85` by one digit without 32-bit overflow. -/
theorem pad85_one (x : Nat) (h : x * 85 + 84 < 4294967296) : pad85 x 1 = x * 85 + 84 := by
  rw [pad85, Nat.mod_eq_of_lt h]
  rfl

/-- `pad85` by two digits without 32-bit overflow. -/
theorem pad85_two (x : Nat) (h : x * 7225 + 7224 < 4294967296) : pad85 x 2 = x * 7225 + 7224 := by
  have hb : x * 85 ≤ x * 7225 := Nat.mul_le_mul_left x (by norm_num)
  have h1 : x * 85 + 84 < 4294967296 := by omega
  rw [pad85, Nat.mod_eq_of_lt h1, pad85_one _ (by
    calc (x * 85 + 84) * 85 + 84 = x * 7225 + 7224 := by ring
    _ < 4294967296 := h)]
  ring

/-- `pad85` by three digits without 32-bit overflow. -/
theorem pad85_three (x : Nat) (h : x * 614125 + 614124 < 4294967296) :
    pad85 x 3 = x * 614125 + 614124 := by
  have hb : x * 85 ≤ x * 614125 := Nat.mul_le_mul_left x (by norm_num)
  have h1 : x * 85 + 84 < 4294967296 := by omega
  rw [pad85, Nat.mod_eq_of_lt h1, pad85_two _ (by
    calc (x * 85 + 84) * 7225 + 7224 = x * 614125 + 614124 := by ring
    _ < 4294967296 := h)]
  ring

/-- Extracting one big-endian byte: dividing `n * u + s` by the weight `n`
(with `s < n`) and reducing modulo 256 recovers `u`'s low byte. -/
theorem unpack_byte (u s n k : Nat) (hn : 0 < n) (hs : s < n) (hu : u % 256 = k) :
    (n * u + s) / n % 256 = k := by
  rw [Nat.mul_add_div hn, Nat.div_eq_of_lt hs]
  simpa using hu

/-- Prepending a decoded full group (five digits or `z`) to any remaining
input prepends its four bytes to the decoded output. -/
theorem Decode_group_prepend (g tail og : List Nat)
    (hg : DecodeLoop g 0 0 = some (og, 0, 0)) :
    Decode (g ++ tail) =
      match Decode tail with
      | none => none
      | some o => some (og ++ o) := by
  unfold Decode
  rw [DecodeLoop_append, hg]
  dsimp only
  cases ht : DecodeLoop tail 0 0 with
  | none => rfl
  | some r =>
    obtain ⟨o, vf, nbf⟩ := r
    dsimp only
    rcases nbf with - | - | n
    · rfl
    · rfl
    · simp [List.append_assoc]

/-- The ascii85 round-trip: decoding the printable encoding of any byte
sequence recovers exactly that sequence. -/
theorem decode_encode : ∀ bs : List Nat, (∀ b ∈ bs, b < 256) →
    Decode (Encode bs) = some bs
  | [], _ => rfl
  | [b0], h => by
    have hb0 : b0 < 256 := h b0 (by simp)
    have hm : ∀ x : Nat, x % 85 < 85 := fun x => Nat.mod_lt _ (by norm_num)
    have hv : b0 * 16777216 < 4294967296 := by omega
    have s0 : decodeStep 0 (b0 * 16777216 / 52200625 % 85 + 33) =
        b0 * 16777216 / 52200625 := by
      rw [show (0 : Nat) = b0 * 16777216 / 4437053125 from
        (Nat.div_eq_of_lt (by omega)).symm]
      exact decodeStep_chain _ 52200625 4437053125 hv (by norm_num)
    have s1 : decodeStep (b0 * 16777216 / 52200625) (b0 * 16777216 / 614125 % 85 + 33) =
        b0 * 16777216 / 614125 := decodeStep_chain _ 614125 52200625 hv (by norm_num)
    show Decode [b0 * 16777216 / 52200625 % 85 + 33,
      b0 * 16777216 / 614125 % 85 + 33] = some [b0]
    unfold Decode
    rw [DecodeLoop_digit _ _ _ _ (hm _) (by omega), s0,
      DecodeLoop_digit _ _ _ _ (hm _) (by omega), s1]
    show some ([] ++ (unpack4 (pad85 (b0 * 16777216 / 614125) 3)).take 1) = some [b0]
    rw [pad85_three _ (by omega)]
    simp only [unpack4, List.take, List.nil_append, Option.some.injEq,
      List.cons.injEq, and_true]
    have hdm := Nat.div_add_mod (b0 * 16777216) 614125
    have hm6 : b0 * 16777216 % 614125 < 614125 := Nat.mod_lt _ (by norm_num)
    obtain ⟨s, hs1, hs2⟩ : ∃ s, s ≤ 614124 ∧
        b0 * 16777216 / 614125 * 614125 + 614124 = 16777216 * b0 + s :=
      ⟨614124 - b0 * 16777216 % 614125, by omega, by omega⟩
    rw [hs2]
    exact unpack_byte b0 s 16777216 b0 (by norm_num) (by omega) (by omega)
  | [b0, b1], h => by
    have hb0 : b0 < 256 := h b0 (by simp)
    have hb1 : b1 < 256 := h b1 (by simp)
    have hm : ∀ x : Nat, x % 85 < 85 := fun x => Nat.mod_lt _ (by norm_num)
    have hv : b0 * 16777216 + b1 * 65536 < 4294967296 := by omega
    have s0 : decodeStep 0 ((b0 * 16777216 + b1 * 65536) / 52200625 % 85 + 33) =
        (b0 * 16777216 + b1 * 65536) / 52200625 := by
      rw [show (0 : Nat) = (b0 * 16777216 + b1 * 65536) / 4437053125 from
        (Nat.div_eq_of_lt (by omega)).symm]
      exact decodeStep_chain _ 52200625 4437053125 hv (by norm_num)
    have s1 : decodeStep ((b0 * 16777216 + b1 * 65536) / 52200625)
        ((b0 * 16777216 + b1 * 65536) / 614125 % 85 + 33) =
        (b0 * 16777216 + b1 * 65536) / 614125 :=
      decodeStep_chain _ 614125 52200625 hv (by norm_num)
    have s2 : decodeStep ((b0 * 16777216 + b1 * 65536) / 614125)
        ((b0 * 16777216 + b1 * 65536) / 7225 % 85 + 33) =
        (b0 * 16777216 + b1 * 65536) / 7225 :=
      decodeStep_chain _ 7225 614125 hv (by norm_num)
    show Decode [(b0 * 16777216 + b1 * 65536) / 52200625 % 85 + 33,
      (b0 * 16777216 + b1 * 65536) / 614125 % 85 + 33,
      (b0 * 16777216 + b1 * 65536) / 7225 % 85 + 33] = some [b0, b1]
    unfold Decode
    rw [DecodeLoop_digit _ _ _ _ (hm _) (by omega), s0,
      DecodeLoop_digit _ _ _ _ (hm _) (by omega), s1,
      DecodeLoop_digit _ _ _ _ (hm _) (by omega), s2]
    show some ([] ++
      (unpack4 (pad85 ((b0 * 16777216 + b1 * 65536) / 7225) 2)).take 2) = some [b0, b1]
    rw [pad85_two _ (by omega)]
    simp only [unpack4, List.take, List.nil_append, Option.some.injEq,
      List.cons.injEq, and_true]
    have hdm := Nat.div_add_mod (b0 * 16777216 + b1 * 65536) 7225
    have hm7 : (b0 * 16777216 + b1 * 65536) % 7225 < 7225 := Nat.mod_lt _ (by norm_num)
    obtain ⟨s, hs1, hs2⟩ : ∃ s, s ≤ 7224 ∧
        (b0 * 16777216 + b1 * 65536) / 7225 * 7225 + 7224 =
          b0 * 16777216 + b1 * 65536 + s :=
      ⟨7224 - (b0 * 16777216 + b1 * 65536) % 7225, by omega, by omega⟩
    rw [hs2]
    constructor
    · rw [show b0 * 16777216 + b1 * 65536 + s = 16777216 * b0 + (b1 * 65536 + s) from by ring]
      exact unpack_byte b0 (b1 * 65536 + s) 16777216 b0 (by norm_num) (by omega) (by omega)
    · rw [show b0 * 16777216 + b1 * 65536 + s = 65536 * (b0 * 256 + b1) + s from by ring]
      exact unpack_byte (b0 * 256 + b1) s 65536 b1 (by norm_num) (by omega) (by omega)
  | [b0, b1, b2], h => by
    have hb0 : b0 < 256 := h b0 (by simp)
    have hb1 : b1 < 256 := h b1 (by simp)
    have hb2 : b2 < 256 := h b2 (by simp)
    have hm : ∀ x : Nat, x % 85 < 85 := fun x => Nat.mod_lt _ (by norm_num)
    have hv : b0 * 16777216 + b1 * 65536 + b2 * 256 < 4294967296 := by omega
    have s0 : decodeStep 0 ((b0 * 16777216 + b1 * 65536 + b2 * 256) / 52200625 % 85 + 33) =
        (b0 * 16777216 + b1 * 65536 + b2 * 256) / 52200625 := by
      rw [show (0 : Nat) = (b0 * 16777216 + b1 * 65536 + b2 * 256) / 4437053125 from
        (Nat.div_eq_of_lt (by omega)).symm]
      exact decodeStep_chain _ 52200625 4437053125 hv (by norm_num)
    have s1 : decodeStep ((b0 * 16777216 + b1 * 65536 + b2 * 256) / 52200625)
        ((b0 * 16777216 + b1 * 65536 + b2 * 256) / 614125 % 85 + 33) =
        (b0 * 16777216 + b1 * 65536 + b2 * 256) / 614125 :=
      decodeStep_chain _ 614125 52200625 hv (by norm_num)
    have s2 : decodeStep ((b0 * 16777216 + b1 * 65536 + b2 * 256) / 614125)
        ((b0 * 16777216 + b1 * 65536 + b2 * 256) / 7225 % 85 + 33) =
        (b0 * 16777216 + b1 * 65536 + b2 * 256) / 7225 :=
      decodeStep_chain _ 7225 614125 hv (by norm_num)
    have s3 : decodeStep ((b0 * 16777216 + b1 * 65536 + b2 * 256) / 7225)
        ((b0 * 16777216 + b1 * 65536 + b2 * 256) / 85 % 85 + 33) =
        (b0 * 16777216 + b1 * 65536 + b2 * 256) / 85 :=
      decodeStep_chain _ 85 7225 hv (by norm_num)
    show Decode [(b0 * 16777216 + b1 * 65536 + b2 * 256) / 52200625 % 85 + 33,
      (b0 * 16777216 + b1 * 65536 + b2 * 256) / 614125 % 85 + 33,
      (b0 * 16777216 + b1 * 65536 + b2 * 256) / 7225 % 85 + 33,
      (b0 * 16777216 + b1 * 65536 + b2 * 256) / 85 % 85 + 33] = some [b0, b1, b2]
    unfold Decode
    rw [DecodeLoop_digit _ _ _ _ (hm _) (by omega), s0,
      DecodeLoop_digit _ _ _ _ (hm _) (by omega), s1,
      DecodeLoop_digit _ _ _ _ (hm _) (by omega), s2,
      DecodeLoop_digit _ _ _ _ (hm _) (by omega), s3]
    show some ([] ++
      (unpack4 (pad85 ((b0 * 16777216 + b1 * 65536 + b2 * 256) / 85) 1)).take 3) =
      some [b0, b1, b2]
    rw [pad85_one _ (by omega)]
    simp only [unpack4, List.take, List.nil_append, Option.some.injEq,
      List.cons.injEq, and_true]
    have hdm := Nat.div_add_mod (b0 * 16777216 + b1 * 65536 + b2 * 256) 85
    have hm8 : (b0 * 16777216 + b1 * 65536 + b2 * 256) % 85 < 85 := Nat.mod_lt _ (by norm_num)
    obtain ⟨s, hs1, hs2⟩ : ∃ s, s ≤ 84 ∧
        (b0 * 16777216 + b1 * 65536 + b2 * 256) / 85 * 85 + 84 =
          b0 * 16777216 + b1 * 65536 + b2 * 256 + s :=
      ⟨84 - (b0 * 16777216 + b1 * 65536 + b2 * 256) % 85, by omega, by omega⟩
    rw [hs2]
    refine ⟨?_, ?_, ?_⟩
    · rw [show b0 * 16777216 + b1 * 65536 + b2 * 256 + s =
        16777216 * b0 + (b1 * 65536 + b2 * 256 + s) from by ring]
      exact unpack_byte b0 (b1 * 65536 + b2 * 256 + s) 16777216 b0
        (by norm_num) (by omega) (by omega)
    · rw [show b0 * 16777216 + b1 * 65536 + b2 * 256 + s =
        65536 * (b0 * 256 + b1) + (b2 * 256 + s) from by ring]
      exact unpack_byte (b0 * 256 + b1) (b2 * 256 + s) 65536 b1
        (by norm_num) (by omega) (by omega)
    · rw [show b0 * 16777216 + b1 * 65536 + b2 * 256 + s =
        256 * (b0 * 65536 + b1 * 256 + b2) + s from by ring]
      exact unpack_byte (b0 * 65536 + b1 * 256 + b2) s 256 b2
        (by norm_num) (by omega) (by omega)
  | b0 :: b1 :: b2 :: b3 :: rest, h => by
    have hb0 : b0 < 256 := h b0 (by simp)
    have hb1 : b1 < 256 := h b1 (by simp)
    have hb2 : b2 < 256 := h b2 (by simp)
    have hb3 : b3 < 256 := h b3 (by simp)
    have ih := decode_encode rest (fun b hb => h b (by simp [hb]))
    by_cases hv : pack4 [b0, b1, b2, b3] = 0
    · rw [show Encode (b0 :: b1 :: b2 :: b3 :: rest) = [122] ++ Encode rest by
        simp only [Encode, if_pos hv]; rfl]
      rw [Decode_group_prepend [122] (Encode rest) [0, 0, 0, 0] (by decide), ih]
      have hz : b0 = 0 ∧ b1 = 0 ∧ b2 = 0 ∧ b3 = 0 := by
        simp only [pack4] at hv; omega
      simp [hz.1, hz.2.1, hz.2.2.1, hz.2.2.2]
    · have hvlt : pack4 [b0, b1, b2, b3] < 4294967296 := by
        simp only [pack4]; omega
      rw [show Encode (b0 :: b1 :: b2 :: b3 :: rest) =
          encGroup (pack4 [b0, b1, b2, b3]) ++ Encode rest by
        simp only [Encode, if_neg hv]]
      rw [Decode_group_prepend _ _ _ (DecodeLoop_encGroup _ hvlt), ih]
      have hu : unpack4 (pack4 [b0, b1, b2, b3]) = [b0, b1, b2, b3] := by
        simp only [pack4, unpack4, List.cons.injEq, and_true]
        refine ⟨?_, ?_, ?_, ?_⟩ <;> omega
      simp [hu]

end Ascii85

/-- Claim C3: for every valid (even-length) hex string, decoding it to raw
bytes, re-encoding those bytes with the dense base-85-style printable
encoding, and decoding that printable form back yields the original raw
bytes: `decode(reencode(hex)) == rawbytes`. -/
theorem C3_binary_reencode_roundtrip (s : List Char) (bs : List Nat)
    (hdec : Hibp85.hexDecode s = some bs) :
    Ascii85.Decode (Ascii85.Encode bs) = some bs :=
  Ascii85.decode_encode bs (hexDecode_bytes_lt s bs hdec)

/-- Claim C3 witness at the hex digest `0fAB00cd`: its 4 raw bytes survive
the encode–decode round trip. -/
theorem C3_binary_reencode_roundtrip_witness :
    Ascii85.Decode (Ascii85.Encode [15, 171, 0, 205]) = some [15, 171, 0, 205] :=
  C3_binary_reencode_roundtrip (String.toList "0fAB00cd") [15, 171, 0, 205] (by decide)
